import Mathlib

/-!
A verification development for the ISMCTS (information set Monte Carlo tree
search) engine of framework.py: the search-tree node structure, the
UCB1-with-availability selection rule, and the per-iteration
determinize/select/expand/simulate/backpropagate loop.

Modelling conventions.
The game-state contract is a record of pure functions; Python's global
random source is modelled by an explicit stream of naturals, one value
consumed per call, and random.choice of a nonempty list picks the element
at index (stream value mod length).  Python's mutable Node objects become
a pure rose tree; backpropagation, which in the source walks parent
pointers upward, is realised by rebuilding the tree on the way out of the
recursive descent, updating exactly the nodes on the visited path.  The
float-valued UCB score of ucb_select_child is idealised: the selection
routine takes the comparison performed by max(key=...) as a boolean
parameter gt, and the claim about the score ties gt to the exact
real-valued formula wins/visits + e * sqrt(log(avails)/visits).  The
rollout loop of the source runs until the game is terminal; games are
assumed to terminate, which is modelled by a fuel bound on the rollout
(claims about tree structure and the returned move do not depend on it).
-/

namespace ISMCTS

variable {σ μ : Type}

/-- The game-state contract consumed by the engine (the GameState interface
of framework.py): current player, determinizing clone (observer and one
random draw as extra arguments), move application, legal-move enumeration
(empty exactly when terminal), and terminal result for a player. -/
structure Game (σ μ : Type) where
  player_to_move : σ → ℕ
  clone_and_randomize : σ → ℕ → ℕ → σ
  do_move : σ → μ → σ
  get_moves : σ → List μ
  get_result : σ → ℕ → ℚ

/-- A node of the search tree (class Node of framework.py): the move that
led here (none for the root), the player who made it (none for the root),
accumulated wins, visit count, availability count, and the insertion-ordered
children.  The parent pointer of the source is not stored: upward
backpropagation is realised by the recursive engine rebuilding the path. -/
inductive Node (μ : Type) : Type where
  | mk (move : Option μ) (player_just_moved : Option ℕ) (wins : ℚ) (visits : ℕ)
      (avails : ℕ) (child_nodes : List (Node μ))

def Node.move : Node μ → Option μ
  | .mk m _ _ _ _ _ => m

def Node.player_just_moved : Node μ → Option ℕ
  | .mk _ p _ _ _ _ => p

def Node.wins : Node μ → ℚ
  | .mk _ _ w _ _ _ => w

def Node.visits : Node μ → ℕ
  | .mk _ _ _ v _ _ => v

def Node.avails : Node μ → ℕ
  | .mk _ _ _ _ a _ => a

def Node.child_nodes : Node μ → List (Node μ)
  | .mk _ _ _ _ _ ch => ch

instance : Inhabited (Node μ) := ⟨.mk none none 0 0 1 []⟩

/-- Node.__init__: a fresh node has wins 0, visits 0, avails 1, no children. -/
def Node.init (move : Option μ) (player_just_moved : Option ℕ) : Node μ :=
  .mk move player_just_moved 0 0 1 []

/-- Replace the child list, keeping every other field. -/
def Node.with_children : Node μ → List (Node μ) → Node μ
  | .mk m p w v a _, ch => .mk m p w v a ch

/-- The avails increment performed on every legal child by ucb_select_child. -/
def Node.bump_avails : Node μ → Node μ
  | .mk m p w v a ch => .mk m p w v (a + 1) ch

/-- Node.update: increment visits, and when player_just_moved is present add
the terminal result for that player to wins. -/
def Node.update (g : Game σ μ) (t : Node μ) (terminal_state : σ) : Node μ :=
  match t with
  | .mk m p w v a ch =>
      .mk m p
        (match p with
          | some pj => w + g.get_result terminal_state pj
          | none => w)
        (v + 1) a ch

/-- Node.get_untried_moves: the legal moves that do not already label a child. -/
def Node.get_untried_moves [DecidableEq μ] (t : Node μ) (legal_moves : List μ) : List μ :=
  let tried_moves := t.child_nodes.map Node.move
  legal_moves.filter (fun move => decide (some move ∉ tried_moves))

/-- Eligibility filter of ucb_select_child: a child whose move is in the
supplied legal-move list.  (The root itself, with move none, never matches.) -/
def eligibleB [DecidableEq μ] (legal_moves : List μ) (c : Node μ) : Bool :=
  match c.move with
  | some m => decide (m ∈ legal_moves)
  | none => false

/-- The legal_children list computed inside ucb_select_child, in child
insertion order. -/
def legal_children [DecidableEq μ] (t : Node μ) (legal_moves : List μ) : List (Node μ) :=
  t.child_nodes.filter (eligibleB legal_moves)

/-- The accumulator loop of Python max(iterable, key=...): gt a b means the
key of a is strictly greater than the key of b, so on ties the earlier
element is kept (first maximum wins). -/
def pyMaxBy {α : Type} (gt : α → α → Bool) : α → List α → α
  | best, [] => best
  | best, x :: xs => pyMaxBy gt (if gt x best then x else best) xs

/-- Python max(iterable, key=...) on a list: none models the ValueError on
an empty sequence. -/
def pyMax {α : Type} (gt : α → α → Bool) : List α → Option α
  | [] => none
  | x :: xs => some (pyMaxBy gt x xs)

/-- The selection of ucb_select_child: the first maximum, under the score
comparison gt, among the eligible children, returned together with its
position in the child list.  none models the ValueError of max([]) (which
the engine never triggers: the guard of the select loop guarantees an
eligible child exists). -/
def selectIdx [DecidableEq μ] (gt : Node μ → Node μ → Bool) (legal_moves : List μ)
    (ch : List (Node μ)) : Option (ℕ × Node μ) :=
  pyMax (fun a b => gt a.2 b.2) (ch.enum.filter (fun p => eligibleB legal_moves p.2))

/-- Node.ucb_select_child: first component is the selected child with its
index (scores are computed on the statistics before any increment), second
component is the node with avails incremented on every eligible child and
on no other. -/
def Node.ucb_select_child [DecidableEq μ] (gt : Node μ → Node μ → Bool) (t : Node μ)
    (legal_moves : List μ) : Option (ℕ × Node μ) × Node μ :=
  (selectIdx gt legal_moves t.child_nodes,
    t.with_children (t.child_nodes.map
      (fun c => if eligibleB legal_moves c then c.bump_avails else c)))

/-- random.choice on a list, driven by one draw r from the random stream. -/
def choice {α : Type} [Inhabited α] (l : List α) (r : ℕ) : α :=
  l.getD (r % l.length) default

/-- The Simulate phase: play uniformly random legal moves until the state is
terminal.  The source's while loop terminates because conforming games do;
here the assumption is a fuel bound (all settled claims are independent of
it). -/
def rollout [Inhabited μ] (g : Game σ μ) (rand : ℕ → ℕ) : ℕ → σ → ℕ → σ × ℕ
  | 0, s, k => (s, k)
  | fuel + 1, s, k =>
    match g.get_moves s with
    | [] => (s, k)
    | u :: us => rollout g rand fuel (g.do_move s (choice (u :: us) (rand k))) (k + 1)

mutual

/-- Number of nodes of a search tree (for the at-most-one-expansion bound). -/
def Node.size : Node μ → ℕ
  | .mk _ _ _ _ _ ch => 1 + Node.sizeL ch

/-- Total size of a list of trees. -/
def Node.sizeL : List (Node μ) → ℕ
  | [] => 0
  | c :: cs => Node.size c + Node.sizeL cs

end

/-- One search iteration of ismcts, fused over the phases that touch the
tree.  On the way down: the Select loop (while the state is non-terminal
and the node has no untried legal move, pick a child by UCB, bump the
availability counters of all eligible children, apply the child's move,
descend) followed by Expand (pick a random untried move, apply it, append
a fresh child) and Simulate (random rollout to a terminal state).  On the
way back up, Backpropagate: every node on the visited path, the new child
included, is updated with the terminal state.  Returns the rebuilt tree,
the terminal state, and the advanced random-stream counter.  The inner
none branch is dead code: when the guard holds every legal move labels a
child, so an eligible child exists (the source would raise ValueError from
max on an empty sequence there, and never does). -/
def ismctsIter [DecidableEq μ] [Inhabited μ] (g : Game σ μ) (gt : Node μ → Node μ → Bool)
    (rand : ℕ → ℕ) (fuel : ℕ) (t : Node μ) (s : σ) (k : ℕ) : Node μ × σ × ℕ :=
  if g.get_moves s ≠ [] ∧ t.get_untried_moves (g.get_moves s) = [] then
    let t2 := (Node.ucb_select_child gt t (g.get_moves s)).2
    match hsel : (Node.ucb_select_child gt t (g.get_moves s)).1 with
    | some jc =>
        let s2 := match jc.2.move with
          | some m => g.do_move s m
          | none => s
        let r := ismctsIter g gt rand fuel jc.2.bump_avails s2 k
        (Node.update g (t2.with_children (t2.child_nodes.set jc.1 r.1)) r.2.1, r.2.1, r.2.2)
    | none => (Node.update g t2 s, s, k)
  else
    match t.get_untried_moves (g.get_moves s) with
    | [] => (Node.update g t s, s, k)
    | u :: us =>
        let m := choice (u :: us) (rand k)
        let p := g.player_to_move s
        let s2 := g.do_move s m
        let r := rollout g rand fuel s2 (k + 1)
        let child := Node.update g (Node.init (some m) (some p)) r.1
        (Node.update g (t.with_children (t.child_nodes ++ [child])) r.1, r.1, r.2)
termination_by t.size
decreasing_by
  simp only [Node.ucb_select_child] at hsel
  have hpy : ∀ (l : List (ℕ × Node μ)) (best : ℕ × Node μ),
      pyMaxBy (fun a b => gt a.2 b.2) best l ∈ best :: l := by
    intro l
    induction l with
    | nil => intro best; simp [pyMaxBy]
    | cons x xs ih =>
        intro best
        have h2 := ih (if gt x.2 best.2 then x else best)
        rw [pyMaxBy]
        rcases List.mem_cons.mp h2 with h3 | h3
        · rw [h3]
          by_cases h4 : gt x.2 best.2
          · simp [h4]
          · simp [h4]
        · exact List.mem_cons_of_mem _ (List.mem_cons_of_mem _ h3)
  have henum : ∀ (n : ℕ) (l : List (Node μ)) (p : ℕ × Node μ),
      p ∈ List.enumFrom n l → p.2 ∈ l := by
    intro n l
    induction l generalizing n with
    | nil => intro p hp; simp [List.enumFrom] at hp
    | cons x xs ih =>
        intro p hp
        rw [List.enumFrom] at hp
        rcases List.mem_cons.mp hp with h | h
        · rw [h]; exact List.mem_cons_self _ _
        · exact List.mem_cons_of_mem _ (ih _ _ h)
  have hjc : jc.2 ∈ t.child_nodes := by
    rw [selectIdx] at hsel
    rcases hE : t.child_nodes.enum.filter (fun p => eligibleB (g.get_moves s) p.2) with
      _ | ⟨y, ys⟩
    · rw [hE] at hsel; simp [pyMax] at hsel
    · rw [hE, pyMax, Option.some.injEq] at hsel
      have h5 : jc ∈ y :: ys := hsel ▸ hpy ys y
      have h6 : jc ∈ t.child_nodes.enum.filter (fun p => eligibleB (g.get_moves s) p.2) :=
        hE ▸ h5
      exact henum 0 _ _ (List.mem_filter.mp h6).1
  have hsize : ∀ (L : List (Node μ)) (c : Node μ), c ∈ L → Node.size c ≤ Node.sizeL L := by
    intro L
    induction L with
    | nil => intro c hc; simp at hc
    | cons x xs ih =>
        intro c hc
        rw [Node.sizeL]
        rcases List.mem_cons.mp hc with h | h
        · rw [h]; exact Nat.le_add_right _ _
        · exact le_trans (ih _ h) (Nat.le_add_left _ _)
  have hbump : Node.size (Node.bump_avails jc.2) = Node.size jc.2 := by
    rcases jc with ⟨j, c⟩; cases c; simp [Node.bump_avails, Node.size]
  cases t with
  | mk m p w v a ch =>
      simp only [Node.child_nodes] at hjc
      have h9 : Node.size jc.2 ≤ Node.sizeL ch := hsize ch jc.2 hjc
      simp only [Node.size]
      omega

/-- The iteration loop of ismcts: run the given number of iterations, each
starting from a fresh determinization of the root state observed by the
player to move at the root, threading the search tree and the
random-stream counter. -/
def ismctsLoop [DecidableEq μ] [Inhabited μ] (g : Game σ μ) (gt : Node μ → Node μ → Bool)
    (rand : ℕ → ℕ) (fuel : ℕ) (rootstate : σ) : ℕ → Node μ → ℕ → Node μ × ℕ
  | 0, t, k => (t, k)
  | n + 1, t, k =>
    let s := g.clone_and_randomize rootstate (g.player_to_move rootstate) (rand k)
    let r := ismctsIter g gt rand fuel t s (k + 1)
    ismctsLoop g gt rand fuel rootstate n r.1 r.2.2

/-- The root node after a full ismcts run: itermax iterations against one
freshly created root. -/
def ismctsTree [DecidableEq μ] [Inhabited μ] (g : Game σ μ) (gt : Node μ → Node μ → Bool)
    (rand : ℕ → ℕ) (fuel : ℕ) (rootstate : σ) (itermax : ℕ) : Node μ :=
  (ismctsLoop g gt rand fuel rootstate itermax (Node.init none none) 0).1

/-- The comparison used by the final read-out max(child_nodes, key=visits). -/
def visGt : Node μ → Node μ → Bool :=
  fun a b => decide (b.visits < a.visits)

/-- The entry point ismcts: run the loop, then return the move of the
most-visited immediate child of the root (first maximum in insertion
order).  none models the ValueError of max over an empty child list.  The
verbose flag only selects which diagnostic string the source prints; the
printing is I/O, is not modelled, and the flag is not consulted. -/
def ismcts [DecidableEq μ] [Inhabited μ] (g : Game σ μ) (gt : Node μ → Node μ → Bool)
    (rand : ℕ → ℕ) (fuel : ℕ) (rootstate : σ) (itermax : ℕ) (verbose : Bool) : Option μ :=
  match pyMax visGt (ismctsTree g gt rand fuel rootstate itermax).child_nodes with
  | some c => c.move
  | none => none

/-- First maximum of a list under a score: x occurs in l, every element
before its occurrence scores strictly less, every element after scores at
most as much.  This is the tie-breaking behaviour of Python max(key=...). -/
def FirstMax {α K : Type} [LinearOrder K] (f : α → K) (l : List α) (x : α) : Prop :=
  ∃ l₁ l₂, l = l₁ ++ x :: l₂ ∧ (∀ y ∈ l₁, f y < f x) ∧ ∀ y ∈ l₂, f y ≤ f x

/-- The parent-dominance invariant: at every node of the tree, the visit
count is at least the sum of the children's visit counts. -/
inductive Good : Node μ → Prop where
  | mk : ∀ (m : Option μ) (p : Option ℕ) (w : ℚ) (v a : ℕ) (ch : List (Node μ)),
      (ch.map Node.visits).sum ≤ v → (∀ c ∈ ch, Good c) → Good (.mk m p w v a ch)

/-! A heap model for the frame claim

Python game states are mutable objects; do_move mutates its receiver in
place and clone_and_randomize allocates a fresh object.  To express that
the engine never mutates the caller's root state, states live in a store
addressed by naturals: the engine reads the root state at its address,
allocates each determinization at a fresh address, and applies every
do_move through the store at the address of the per-iteration clone. -/

structure Store (σ : Type) where
  mem : ℕ → σ
  next : ℕ

def readS (st : Store σ) (a : ℕ) : σ := st.mem a

def writeS (st : Store σ) (a : ℕ) (s : σ) : Store σ :=
  ⟨fun b => if b = a then s else st.mem b, st.next⟩

def allocS (st : Store σ) (s : σ) : Store σ × ℕ :=
  (⟨fun b => if b = st.next then s else st.mem b, st.next + 1⟩, st.next)

/-- Lift a game to store-addressed states: a state is an address into a
store, every contract operation reads the object at that address, and
do_move writes the moved state back in place, exactly as the mutating
Python method does. -/
def storeGame (g : Game σ μ) : Game (Store σ × ℕ) μ where
  player_to_move := fun p => g.player_to_move (readS p.1 p.2)
  clone_and_randomize := fun p obs r =>
    ((allocS p.1 (g.clone_and_randomize (readS p.1 p.2) obs r)).1,
      (allocS p.1 (g.clone_and_randomize (readS p.1 p.2) obs r)).2)
  do_move := fun p m => (writeS p.1 p.2 (g.do_move (readS p.1 p.2) m), p.2)
  get_moves := fun p => g.get_moves (readS p.1 p.2)
  get_result := fun p a => g.get_result (readS p.1 p.2) a

/-- The ismcts loop over the store: the root state lives at rootAddr, each
iteration allocates its determinized clone at a fresh address and runs the
search iteration through the store, and the store produced by one
iteration is the heap the next iteration starts from. -/
def ismctsLoopS [DecidableEq μ] [Inhabited μ] (g : Game σ μ) (gt : Node μ → Node μ → Bool)
    (rand : ℕ → ℕ) (fuel : ℕ) (rootAddr : ℕ) :
    ℕ → Node μ → Store σ → ℕ → Node μ × Store σ × ℕ
  | 0, t, st, k => (t, st, k)
  | n + 1, t, st, k =>
    let root := readS st rootAddr
    let al := allocS st (g.clone_and_randomize root (g.player_to_move root) (rand k))
    let r := ismctsIter (storeGame g) gt rand fuel t (al.1, al.2) (k + 1)
    ismctsLoopS g gt rand fuel rootAddr n r.1 r.2.1.1 r.2.2

/-! Concrete fixtures used by the witnesses -/

/-- A game over natural-number states with a single legal move 7 at the
initial state 0 and no moves anywhere else. -/
def gOne : Game ℕ ℕ where
  player_to_move := fun _ => 1
  clone_and_randomize := fun s _ _ => s
  do_move := fun s _ => s + 1
  get_moves := fun s => if s = 0 then [7] else []
  get_result := fun _ _ => 1

/-- A game with no legal move in any state: every state is terminal. -/
def gNone : Game ℕ ℕ where
  player_to_move := fun _ => 1
  clone_and_randomize := fun s _ _ => s
  do_move := fun s _ => s + 1
  get_moves := fun _ => []
  get_result := fun _ _ => 0

/-- A constant random stream. -/
def rand0 : ℕ → ℕ := fun _ => 0

/-- A trivial score comparison (never strictly greater). -/
def gtF : Node ℕ → Node ℕ → Bool := fun _ _ => false

/-- The UCB comparison specialised to exploration constant 0, where the
score degenerates to the exact win rate and is computable over ℚ. -/
def gtQ : Node ℕ → Node ℕ → Bool :=
  fun a b => decide (b.wins / (b.visits : ℚ) < a.wins / (a.visits : ℚ))

/-- A child with win rate 0, one visit, one availability. -/
def c1w : Node ℕ := .mk (some 0) (some 1) 0 1 1 []

/-- A child with win rate 1, one visit, one availability. -/
def c2w : Node ℕ := .mk (some 1) (some 2) 1 1 1 []

/-- A parent node holding the two children above. -/
def tw : Node ℕ := .mk none none 0 2 3 [c1w, c2w]

/-- The legal-move list making both children of tw eligible. -/
def lw : List ℕ := [0, 1]

/-! Field lemmas -/

@[simp] theorem Node.move_mk (m : Option μ) (p : Option ℕ) (w : ℚ) (v a : ℕ)
    (ch : List (Node μ)) : (Node.mk m p w v a ch).move = m := rfl

@[simp] theorem Node.pjm_mk (m : Option μ) (p : Option ℕ) (w : ℚ) (v a : ℕ)
    (ch : List (Node μ)) : (Node.mk m p w v a ch).player_just_moved = p := rfl

@[simp] theorem Node.wins_mk (m : Option μ) (p : Option ℕ) (w : ℚ) (v a : ℕ)
    (ch : List (Node μ)) : (Node.mk m p w v a ch).wins = w := rfl

@[simp] theorem Node.visits_mk (m : Option μ) (p : Option ℕ) (w : ℚ) (v a : ℕ)
    (ch : List (Node μ)) : (Node.mk m p w v a ch).visits = v := rfl

@[simp] theorem Node.avails_mk (m : Option μ) (p : Option ℕ) (w : ℚ) (v a : ℕ)
    (ch : List (Node μ)) : (Node.mk m p w v a ch).avails = a := rfl

@[simp] theorem Node.child_nodes_mk (m : Option μ) (p : Option ℕ) (w : ℚ) (v a : ℕ)
    (ch : List (Node μ)) : (Node.mk m p w v a ch).child_nodes = ch := rfl

@[simp] theorem Node.with_children_move (t : Node μ) (ch : List (Node μ)) :
    (t.with_children ch).move = t.move := by cases t; rfl

@[simp] theorem Node.with_children_pjm (t : Node μ) (ch : List (Node μ)) :
    (t.with_children ch).player_just_moved = t.player_just_moved := by cases t; rfl

@[simp] theorem Node.with_children_wins (t : Node μ) (ch : List (Node μ)) :
    (t.with_children ch).wins = t.wins := by cases t; rfl

@[simp] theorem Node.with_children_visits (t : Node μ) (ch : List (Node μ)) :
    (t.with_children ch).visits = t.visits := by cases t; rfl

@[simp] theorem Node.with_children_avails (t : Node μ) (ch : List (Node μ)) :
    (t.with_children ch).avails = t.avails := by cases t; rfl

@[simp] theorem Node.with_children_child_nodes (t : Node μ) (ch : List (Node μ)) :
    (t.with_children ch).child_nodes = ch := by cases t; rfl

@[simp] theorem Node.bump_move (t : Node μ) : t.bump_avails.move = t.move := by cases t; rfl

@[simp] theorem Node.bump_pjm (t : Node μ) :
    t.bump_avails.player_just_moved = t.player_just_moved := by cases t; rfl

@[simp] theorem Node.bump_wins (t : Node μ) : t.bump_avails.wins = t.wins := by cases t; rfl

@[simp] theorem Node.bump_visits (t : Node μ) : t.bump_avails.visits = t.visits := by
  cases t; rfl

@[simp] theorem Node.bump_avails_avails (t : Node μ) :
    t.bump_avails.avails = t.avails + 1 := by cases t; rfl

@[simp] theorem Node.bump_child_nodes (t : Node μ) :
    t.bump_avails.child_nodes = t.child_nodes := by cases t; rfl

@[simp] theorem Node.update_move (g : Game σ μ) (t : Node μ) (ts : σ) :
    (t.update g ts).move = t.move := by cases t; rfl

@[simp] theorem Node.update_pjm (g : Game σ μ) (t : Node μ) (ts : σ) :
    (t.update g ts).player_just_moved = t.player_just_moved := by cases t; rfl

@[simp] theorem Node.update_visits (g : Game σ μ) (t : Node μ) (ts : σ) :
    (t.update g ts).visits = t.visits + 1 := by cases t; rfl

@[simp] theorem Node.update_avails (g : Game σ μ) (t : Node μ) (ts : σ) :
    (t.update g ts).avails = t.avails := by cases t; rfl

@[simp] theorem Node.update_child_nodes (g : Game σ μ) (t : Node μ) (ts : σ) :
    (t.update g ts).child_nodes = t.child_nodes := by cases t; rfl

theorem Node.update_wins (g : Game σ μ) (t : Node μ) (ts : σ) :
    (t.update g ts).wins = t.wins +
      (match t.player_just_moved with
        | some pj => g.get_result ts pj
        | none => 0) := by
  cases t with
  | mk m p w v a ch => cases p <;> simp [Node.update]

/-! Python max: membership and the first-maximum characterisation -/

theorem pyMaxBy_mem {α : Type} (gt : α → α → Bool) :
    ∀ (l : List α) (best : α), pyMaxBy gt best l ∈ best :: l := by
  intro l
  induction l with
  | nil => intro best; simp [pyMaxBy]
  | cons x xs ih =>
      intro best
      rw [pyMaxBy]
      rcases List.mem_cons.mp (ih (if gt x best then x else best)) with h3 | h3
      · rw [h3]
        by_cases h4 : gt x best
        · simp [h4]
        · simp [h4]
      · exact List.mem_cons_of_mem _ (List.mem_cons_of_mem _ h3)

theorem pyMax_mem {α : Type} (gt : α → α → Bool) (l : List α) (x : α)
    (hx : pyMax gt l = some x) : x ∈ l := by
  cases l with
  | nil => simp [pyMax] at hx
  | cons y ys =>
      rw [pyMax, Option.some.injEq] at hx
      exact hx ▸ pyMaxBy_mem gt ys y

theorem pyMax_eq_none {α : Type} (gt : α → α → Bool) (l : List α) :
    pyMax gt l = none ↔ l = [] := by
  cases l <;> simp [pyMax]

theorem pyMaxBy_spec {α K : Type} [LinearOrder K] (f : α → K) (gt : α → α → Bool)
    (hgt : ∀ a b, gt a b = true ↔ f b < f a) :
    ∀ (l : List α) (best : α),
      (pyMaxBy gt best l = best ∧ ∀ y ∈ l, f y ≤ f best) ∨
      (∃ l₁ l₂, l = l₁ ++ pyMaxBy gt best l :: l₂ ∧ f best < f (pyMaxBy gt best l) ∧
        (∀ y ∈ l₁, f y < f (pyMaxBy gt best l)) ∧ ∀ y ∈ l₂, f y ≤ f (pyMaxBy gt best l)) := by
  intro l
  induction l with
  | nil => intro best; left; exact ⟨rfl, by simp⟩
  | cons x xs ih =>
      intro best
      rw [pyMaxBy]
      by_cases hx : gt x best
      · rw [if_pos hx]
        have hfx : f best < f x := (hgt x best).mp hx
        rcases ih x with ⟨heq, hle⟩ | ⟨l₁, l₂, hdecomp, hlt, hbefore, hafter⟩
        · right
          refine ⟨[], xs, ?_, ?_, by simp, ?_⟩
          · rw [heq]; rfl
          · rw [heq]; exact hfx
          · intro y hy; rw [heq]; exact hle y hy
        · right
          refine ⟨x :: l₁, l₂, by rw [List.cons_append, ← hdecomp], lt_trans hfx hlt, ?_, hafter⟩
          intro y hy
          rcases List.mem_cons.mp hy with h | h
          · rw [h]; exact hlt
          · exact hbefore y h
      · rw [if_neg hx]
        have hfx : f x ≤ f best := by
          by_contra hcon
          exact hx ((hgt x best).mpr (lt_of_not_le hcon))
        rcases ih best with ⟨heq, hle⟩ | ⟨l₁, l₂, hdecomp, hlt, hbefore, hafter⟩
        · left
          refine ⟨heq, ?_⟩
          intro y hy
          rcases List.mem_cons.mp hy with h | h
          · rw [h]; exact hfx
          · exact hle y h
        · right
          refine ⟨x :: l₁, l₂, by rw [List.cons_append, ← hdecomp], hlt, ?_, hafter⟩
          intro y hy
          rcases List.mem_cons.mp hy with h | h
          · rw [h]; exact lt_of_le_of_lt hfx hlt
          · exact hbefore y h

theorem pyMax_firstMax {α K : Type} [LinearOrder K] (f : α → K) (gt : α → α → Bool)
    (hgt : ∀ a b, gt a b = true ↔ f b < f a) (l : List α) (x : α)
    (hx : pyMax gt l = some x) : FirstMax f l x := by
  cases l with
  | nil => simp [pyMax] at hx
  | cons y ys =>
      rw [pyMax, Option.some.injEq] at hx
      subst hx
      rcases pyMaxBy_spec f gt hgt ys y with ⟨heq, hle⟩ | ⟨l₁, l₂, hdecomp, hlt, hbefore, hafter⟩
      · refine ⟨[], ys, ?_, by simp, ?_⟩
        · rw [heq]; rfl
        · intro z hz; rw [heq]; exact hle z hz
      · refine ⟨y :: l₁, l₂, by rw [List.cons_append, ← hdecomp], ?_, hafter⟩
        intro z hz
        rcases List.mem_cons.mp hz with h | h
        · rw [h]; exact hlt
        · exact hbefore z h

/-! Enumeration, filtering, and the selection routine -/

theorem enumFrom_map_snd {α : Type} : ∀ (n : ℕ) (l : List α),
    (List.enumFrom n l).map Prod.snd = l := by
  intro n l
  induction l generalizing n with
  | nil => rfl
  | cons x xs ih => simp [List.enumFrom, ih]

theorem map_snd_filter_snd {α β : Type} (q : β → Bool) :
    ∀ l : List (α × β),
      (l.filter (fun p => q p.2)).map Prod.snd = (l.map Prod.snd).filter q := by
  intro l
  induction l with
  | nil => rfl
  | cons x xs ih =>
      by_cases hq : q x.2
      · simp [List.filter, hq, ih]
      · simp [List.filter, hq, ih]

/-- The eligible (index, child) pairs of selectIdx project onto exactly the
legal_children list, in the same order. -/
theorem elig_enum_map_snd [DecidableEq μ] (t : Node μ) (legal : List μ) :
    ((t.child_nodes.enum.filter (fun p => eligibleB legal p.2)).map Prod.snd) =
      legal_children t legal := by
  rw [map_snd_filter_snd, legal_children, List.enum, enumFrom_map_snd]

theorem selectIdx_eq_some [DecidableEq μ] (gt : Node μ → Node μ → Bool) (legal : List μ)
    (ch : List (Node μ)) (jc : ℕ × Node μ) (hsel : selectIdx gt legal ch = some jc) :
    ch[jc.1]? = some jc.2 ∧ eligibleB legal jc.2 = true := by
  have hmem := pyMax_mem _ _ _ hsel
  have h1 := List.mem_filter.mp hmem
  exact ⟨List.mem_enum_iff_getElem?.mp h1.1, h1.2⟩

theorem selectIdx_isSome [DecidableEq μ] (gt : Node μ → Node μ → Bool) (legal : List μ)
    (t : Node μ) (hne : legal_children t legal ≠ []) :
    ∃ jc, selectIdx gt legal t.child_nodes = some jc := by
  rcases hE : t.child_nodes.enum.filter (fun p => eligibleB legal p.2) with _ | ⟨y, ys⟩
  · exact absurd (by rw [← elig_enum_map_snd t legal, hE]; rfl) hne
  · exact ⟨pyMaxBy (fun a b => gt a.2 b.2) y ys, by rw [selectIdx, hE]; rfl⟩

/-- When the state is non-terminal and every legal move already labels a
child, an eligible child exists: the select guard never hands max an empty
sequence. -/
theorem legal_children_ne_nil [DecidableEq μ] (t : Node μ) {u : μ} {us : List μ}
    (hu : t.get_untried_moves (u :: us) = []) : legal_children t (u :: us) ≠ [] := by
  have h1 : ∀ m ∈ u :: us, some m ∈ t.child_nodes.map Node.move := by
    intro m hm
    by_contra hcon
    have : m ∈ t.get_untried_moves (u :: us) :=
      List.mem_filter.mpr ⟨hm, by simpa using hcon⟩
    rw [hu] at this
    simp at this
  rcases List.mem_map.mp (h1 u (List.mem_cons_self u us)) with ⟨c, hc, hcm⟩
  have helig : eligibleB (u :: us) c = true := by
    rw [eligibleB, hcm]
    simp
  exact List.ne_nil_of_mem (List.mem_filter.mpr ⟨hc, helig⟩)

/-! Size lemmas -/

theorem Node.size_eq (m : Option μ) (p : Option ℕ) (w : ℚ) (v a : ℕ) (ch : List (Node μ)) :
    (Node.mk m p w v a ch).size = 1 + Node.sizeL ch := by
  simp [Node.size]

theorem Node.sizeL_nil : Node.sizeL ([] : List (Node μ)) = 0 := by simp [Node.sizeL]

theorem Node.sizeL_cons (c : Node μ) (cs : List (Node μ)) :
    Node.sizeL (c :: cs) = c.size + Node.sizeL cs := by simp [Node.sizeL]

theorem Node.sizeL_append : ∀ (l₁ l₂ : List (Node μ)),
    Node.sizeL (l₁ ++ l₂) = Node.sizeL l₁ + Node.sizeL l₂ := by
  intro l₁ l₂
  induction l₁ with
  | nil => simp [Node.sizeL]
  | cons c cs ih => rw [List.cons_append, Node.sizeL_cons, Node.sizeL_cons, ih]; omega

theorem Node.size_bump (c : Node μ) : c.bump_avails.size = c.size := by
  cases c; simp [Node.bump_avails, Node.size]

theorem Node.size_update (g : Game σ μ) (c : Node μ) (ts : σ) :
    (c.update g ts).size = c.size := by
  cases c with
  | mk m p w v a ch => cases p <;> simp [Node.update, Node.size]

theorem Node.size_with_children (t : Node μ) (ch : List (Node μ)) :
    (t.with_children ch).size = 1 + Node.sizeL ch := by
  cases t; simp [Node.with_children, Node.size]

theorem Node.sizeL_set : ∀ (l : List (Node μ)) (j : ℕ) (c b : Node μ),
    l[j]? = some c → Node.sizeL (l.set j b) + c.size = Node.sizeL l + b.size := by
  intro l
  induction l with
  | nil => intro j c b h; simp at h
  | cons x xs ih =>
      intro j c b h
      cases j with
      | zero =>
          simp at h
          rw [List.set_cons_zero, Node.sizeL_cons, Node.sizeL_cons, h]
          omega
      | succ j =>
          simp at h
          rw [List.set_cons_succ, Node.sizeL_cons, Node.sizeL_cons]
          have := ih j c b h
          omega

theorem Node.sizeL_map_bumpIf [DecidableEq μ] (legal : List μ) :
    ∀ ch : List (Node μ),
      Node.sizeL (ch.map (fun c => if eligibleB legal c then c.bump_avails else c)) =
        Node.sizeL ch := by
  intro ch
  induction ch with
  | nil => rfl
  | cons c cs ih =>
      rw [List.map_cons, Node.sizeL_cons, Node.sizeL_cons, ih]
      by_cases h : eligibleB legal c
      · rw [if_pos h, Node.size_bump]
      · rw [if_neg h]

theorem Node.sizeL_le_of_mem : ∀ (l : List (Node μ)) (c : Node μ),
    c ∈ l → c.size ≤ Node.sizeL l := by
  intro l
  induction l with
  | nil => intro c hc; simp at hc
  | cons x xs ih =>
      intro c hc
      rw [Node.sizeL_cons]
      rcases List.mem_cons.mp hc with h | h
      · rw [h]; exact Nat.le_add_right _ _
      · exact le_trans (ih _ h) (Nat.le_add_left _ _)

/-! Unfolding lemmas for one search iteration -/

theorem ismctsIter_terminal [DecidableEq μ] [Inhabited μ] (g : Game σ μ)
    (gt : Node μ → Node μ → Bool) (rand : ℕ → ℕ) (fuel : ℕ) (t : Node μ) (s : σ) (k : ℕ)
    (h : g.get_moves s = []) :
    ismctsIter g gt rand fuel t s k = (t.update g s, s, k) := by
  have hu : t.get_untried_moves ([] : List μ) = [] := rfl
  rw [ismctsIter.eq_def]
  simp [h, hu]

theorem ismctsIter_expand [DecidableEq μ] [Inhabited μ] (g : Game σ μ)
    (gt : Node μ → Node μ → Bool) (rand : ℕ → ℕ) (fuel : ℕ) (t : Node μ) (s : σ) (k : ℕ)
    {u : μ} {us : List μ} (hu : t.get_untried_moves (g.get_moves s) = u :: us) :
    ismctsIter g gt rand fuel t s k =
      (let m := choice (u :: us) (rand k)
       let r := rollout g rand fuel (g.do_move s m) (k + 1)
       let child := Node.update g (Node.init (some m) (some (g.player_to_move s))) r.1
       ((t.with_children (t.child_nodes ++ [child])).update g r.1, r.1, r.2)) := by
  rw [ismctsIter.eq_def]
  have hcond : ¬(g.get_moves s ≠ [] ∧ t.get_untried_moves (g.get_moves s) = []) := by
    rw [hu]; simp
  rw [if_neg hcond, hu]

theorem ismctsIter_select [DecidableEq μ] [Inhabited μ] (g : Game σ μ)
    (gt : Node μ → Node μ → Bool) (rand : ℕ → ℕ) (fuel : ℕ) (t : Node μ) (s : σ) (k : ℕ)
    (hm : g.get_moves s ≠ []) (hu : t.get_untried_moves (g.get_moves s) = [])
    {jc : ℕ × Node μ} (hsel : selectIdx gt (g.get_moves s) t.child_nodes = some jc) :
    ismctsIter g gt rand fuel t s k =
      (let t2 := (Node.ucb_select_child gt t (g.get_moves s)).2
       let s2 := match jc.2.move with
         | some m => g.do_move s m
         | none => s
       let r := ismctsIter g gt rand fuel jc.2.bump_avails s2 k
       (Node.update g (t2.with_children (t2.child_nodes.set jc.1 r.1)) r.2.1,
         r.2.1, r.2.2)) := by
  rw [ismctsIter.eq_def]
  rw [if_pos ⟨hm, hu⟩]
  have hsel2 : (Node.ucb_select_child gt t (g.get_moves s)).1 = some jc := hsel
  split
  · rename_i jc2 heq
    rw [hsel2, Option.some.injEq] at heq
    subst heq
    rfl
  · rename_i heq
    rw [hsel2] at heq
    simp at heq

@[simp] theorem ucb_snd_move [DecidableEq μ] (gt : Node μ → Node μ → Bool) (t : Node μ)
    (legal : List μ) : (Node.ucb_select_child gt t legal).2.move = t.move := by
  simp [Node.ucb_select_child]

@[simp] theorem ucb_snd_pjm [DecidableEq μ] (gt : Node μ → Node μ → Bool) (t : Node μ)
    (legal : List μ) :
    (Node.ucb_select_child gt t legal).2.player_just_moved = t.player_just_moved := by
  simp [Node.ucb_select_child]

@[simp] theorem ucb_snd_visits [DecidableEq μ] (gt : Node μ → Node μ → Bool) (t : Node μ)
    (legal : List μ) : (Node.ucb_select_child gt t legal).2.visits = t.visits := by
  simp [Node.ucb_select_child]

@[simp] theorem ucb_snd_wins [DecidableEq μ] (gt : Node μ → Node μ → Bool) (t : Node μ)
    (legal : List μ) : (Node.ucb_select_child gt t legal).2.wins = t.wins := by
  simp [Node.ucb_select_child]

@[simp] theorem ucb_snd_avails [DecidableEq μ] (gt : Node μ → Node μ → Bool) (t : Node μ)
    (legal : List μ) : (Node.ucb_select_child gt t legal).2.avails = t.avails := by
  simp [Node.ucb_select_child]

theorem ucb_snd_child_nodes [DecidableEq μ] (gt : Node μ → Node μ → Bool) (t : Node μ)
    (legal : List μ) :
    (Node.ucb_select_child gt t legal).2.child_nodes =
      t.child_nodes.map (fun c => if eligibleB legal c then c.bump_avails else c) := by
  simp [Node.ucb_select_child]

/-- The select guard always finds an eligible child: helper packaging of
the two facts that make the dead none branch dead. -/
theorem select_guard_some [DecidableEq μ] (g : Game σ μ) (gt : Node μ → Node μ → Bool)
    (t : Node μ) (s : σ) (hm : g.get_moves s ≠ [])
    (hu : t.get_untried_moves (g.get_moves s) = []) :
    ∃ jc, selectIdx gt (g.get_moves s) t.child_nodes = some jc := by
  apply selectIdx_isSome
  rcases hM : g.get_moves s with _ | ⟨u, us⟩
  · exact absurd hM hm
  · exact legal_children_ne_nil t (hM ▸ hu)

theorem ismctsIter_visits [DecidableEq μ] [Inhabited μ] (g : Game σ μ)
    (gt : Node μ → Node μ → Bool) (rand : ℕ → ℕ) (fuel : ℕ) (t : Node μ) (s : σ) (k : ℕ) :
    ((ismctsIter g gt rand fuel t s k).1).visits = t.visits + 1 := by
  by_cases h : g.get_moves s = []
  · rw [ismctsIter_terminal g gt rand fuel t s k h]; simp
  · rcases hu : t.get_untried_moves (g.get_moves s) with _ | ⟨u, us⟩
    · obtain ⟨jc, hsel⟩ := select_guard_some g gt t s h hu
      rw [ismctsIter_select g gt rand fuel t s k h hu hsel]
      simp
    · rw [ismctsIter_expand g gt rand fuel t s k hu]
      simp

theorem ismctsIter_root_move [DecidableEq μ] [Inhabited μ] (g : Game σ μ)
    (gt : Node μ → Node μ → Bool) (rand : ℕ → ℕ) (fuel : ℕ) (t : Node μ) (s : σ) (k : ℕ) :
    ((ismctsIter g gt rand fuel t s k).1).move = t.move := by
  by_cases h : g.get_moves s = []
  · rw [ismctsIter_terminal g gt rand fuel t s k h]; simp
  · rcases hu : t.get_untried_moves (g.get_moves s) with _ | ⟨u, us⟩
    · obtain ⟨jc, hsel⟩ := select_guard_some g gt t s h hu
      rw [ismctsIter_select g gt rand fuel t s k h hu hsel]
      simp
    · rw [ismctsIter_expand g gt rand fuel t s k hu]
      simp

theorem ismctsIter_root_pjm [DecidableEq μ] [Inhabited μ] (g : Game σ μ)
    (gt : Node μ → Node μ → Bool) (rand : ℕ → ℕ) (fuel : ℕ) (t : Node μ) (s : σ) (k : ℕ) :
    ((ismctsIter g gt rand fuel t s k).1).player_just_moved = t.player_just_moved := by
  by_cases h : g.get_moves s = []
  · rw [ismctsIter_terminal g gt rand fuel t s k h]; simp
  · rcases hu : t.get_untried_moves (g.get_moves s) with _ | ⟨u, us⟩
    · obtain ⟨jc, hsel⟩ := select_guard_some g gt t s h hu
      rw [ismctsIter_select g gt rand fuel t s k h hu hsel]
      simp
    · rw [ismctsIter_expand g gt rand fuel t s k hu]
      simp

/-! Loop lemmas -/

theorem ismctsLoop_visits [DecidableEq μ] [Inhabited μ] (g : Game σ μ)
    (gt : Node μ → Node μ → Bool) (rand : ℕ → ℕ) (fuel : ℕ) (root : σ) :
    ∀ (n : ℕ) (t : Node μ) (k : ℕ),
      ((ismctsLoop g gt rand fuel root n t k).1).visits = t.visits + n := by
  intro n
  induction n with
  | zero => intro t k; rfl
  | succ n ih =>
      intro t k
      rw [ismctsLoop]
      rw [ih]
      rw [ismctsIter_visits]
      omega

theorem Node.size_eq' (t : Node μ) : t.size = 1 + Node.sizeL t.child_nodes := by
  cases t; simp [Node.size]

theorem getElem?_map_bumpIf [DecidableEq μ] (legal : List μ) (ch : List (Node μ)) (j : ℕ)
    (c : Node μ) (hc : ch[j]? = some c) (helig : eligibleB legal c = true) :
    (ch.map (fun d => if eligibleB legal d then d.bump_avails else d))[j]? =
      some c.bump_avails := by
  rw [List.getElem?_map, hc]
  simp [helig]

theorem ismctsIter_size_aux [DecidableEq μ] [Inhabited μ] (g : Game σ μ)
    (gt : Node μ → Node μ → Bool) (rand : ℕ → ℕ) (fuel : ℕ) :
    ∀ (N : ℕ) (t : Node μ), t.size ≤ N → ∀ (s : σ) (k : ℕ),
      ((ismctsIter g gt rand fuel t s k).1).size ≤ t.size + 1 := by
  intro N
  induction N with
  | zero =>
      intro t ht
      rw [Node.size_eq'] at ht
      omega
  | succ N ih =>
      intro t ht s k
      by_cases h : g.get_moves s = []
      · rw [ismctsIter_terminal g gt rand fuel t s k h, Node.size_update]
        omega
      · rcases hu : t.get_untried_moves (g.get_moves s) with _ | ⟨u, us⟩
        · obtain ⟨jc, hsel⟩ := select_guard_some g gt t s h hu
          obtain ⟨hget, helig⟩ := selectIdx_eq_some gt (g.get_moves s) t.child_nodes jc hsel
          rw [ismctsIter_select g gt rand fuel t s k h hu hsel]
          simp only [Node.size_update, Node.size_with_children, ucb_snd_child_nodes]
          have hget2 := getElem?_map_bumpIf (g.get_moves s) t.child_nodes jc.1 jc.2 hget helig
          have hset := Node.sizeL_set
            (t.child_nodes.map (fun d => if eligibleB (g.get_moves s) d then d.bump_avails else d))
            jc.1 jc.2.bump_avails
            ((ismctsIter g gt rand fuel jc.2.bump_avails
              (match jc.2.move with | some m => g.do_move s m | none => s) k).1)
            hget2
          have hrec : ((ismctsIter g gt rand fuel jc.2.bump_avails
              (match jc.2.move with | some m => g.do_move s m | none => s) k).1).size ≤
              jc.2.bump_avails.size + 1 := by
            apply ih
            rw [Node.size_bump]
            have := Node.sizeL_le_of_mem t.child_nodes jc.2 (List.getElem?_mem hget)
            rw [Node.size_eq'] at ht
            omega
          rw [Node.sizeL_map_bumpIf] at hset
          rw [Node.size_bump] at hrec
          rw [Node.size_eq']
          have h1 : Node.size jc.2.bump_avails = Node.size jc.2 := Node.size_bump jc.2
          omega
        · rw [ismctsIter_expand g gt rand fuel t s k hu]
          simp only [Node.size_update, Node.size_with_children, Node.sizeL_append,
            Node.sizeL_cons, Node.sizeL_nil, Node.init, Node.size_eq, Node.child_nodes_mk]
          rw [Node.size_eq']
          omega

theorem ismctsIter_size [DecidableEq μ] [Inhabited μ] (g : Game σ μ)
    (gt : Node μ → Node μ → Bool) (rand : ℕ → ℕ) (fuel : ℕ) (t : Node μ) (s : σ) (k : ℕ) :
    ((ismctsIter g gt rand fuel t s k).1).size ≤ t.size + 1 :=
  ismctsIter_size_aux g gt rand fuel t.size t (le_refl _) s k

theorem ismctsLoop_size [DecidableEq μ] [Inhabited μ] (g : Game σ μ)
    (gt : Node μ → Node μ → Bool) (rand : ℕ → ℕ) (fuel : ℕ) (root : σ) :
    ∀ (n : ℕ) (t : Node μ) (k : ℕ),
      ((ismctsLoop g gt rand fuel root n t k).1).size ≤ t.size + n := by
  intro n
  induction n with
  | zero => intro t k; exact le_refl _
  | succ n ih =>
      intro t k
      rw [ismctsLoop]
      calc ((ismctsLoop g gt rand fuel root n
              (ismctsIter g gt rand fuel t
                (g.clone_and_randomize root (g.player_to_move root) (rand k)) (k + 1)).1
              (ismctsIter g gt rand fuel t
                (g.clone_and_randomize root (g.player_to_move root) (rand k)) (k + 1)).2.2).1).size ≤
            ((ismctsIter g gt rand fuel t
              (g.clone_and_randomize root (g.player_to_move root) (rand k)) (k + 1)).1).size + n :=
          ih _ _
        _ ≤ (t.size + 1) + n := by
            have := ismctsIter_size g gt rand fuel t
              (g.clone_and_randomize root (g.player_to_move root) (rand k)) (k + 1)
            omega
        _ = t.size + (n + 1) := by omega

/-! The parent-dominance invariant -/

theorem good_inv {m : Option μ} {p : Option ℕ} {w : ℚ} {v a : ℕ} {ch : List (Node μ)}
    (h : Good (Node.mk m p w v a ch)) :
    (ch.map Node.visits).sum ≤ v ∧ ∀ c ∈ ch, Good c := by
  cases h with
  | mk _ _ _ _ _ _ h1 h2 => exact ⟨h1, h2⟩

theorem good_bump {c : Node μ} (h : Good c) : Good c.bump_avails := by
  cases c with
  | mk m p w v a ch =>
      obtain ⟨h1, h2⟩ := good_inv h
      rw [Node.bump_avails]
      exact Good.mk m p w v (a + 1) ch h1 h2

theorem good_bumpIf [DecidableEq μ] (legal : List μ) {c : Node μ} (h : Good c) :
    Good (if eligibleB legal c then c.bump_avails else c) := by
  by_cases he : eligibleB legal c
  · rw [if_pos he]; exact good_bump h
  · rw [if_neg he]; exact h

theorem good_update (g : Game σ μ) {c : Node μ} (ts : σ) (h : Good c) :
    Good (c.update g ts) := by
  cases c with
  | mk m p w v a ch =>
      obtain ⟨h1, h2⟩ := good_inv h
      cases p <;>
        · simp only [Node.update]
          exact Good.mk _ _ _ _ _ _ (le_trans h1 (Nat.le_succ v)) h2

theorem sum_map_set {α : Type} (f : α → ℕ) : ∀ (l : List α) (j : ℕ) (c b : α),
    l[j]? = some c → ((l.set j b).map f).sum + f c = (l.map f).sum + f b := by
  intro l
  induction l with
  | nil => intro j c b h; simp at h
  | cons x xs ih =>
      intro j c b h
      cases j with
      | zero =>
          simp at h
          rw [List.set_cons_zero]
          simp [h]
          omega
      | succ j =>
          simp at h
          rw [List.set_cons_succ]
          simp only [List.map_cons, List.sum_cons]
          have := ih j c b h
          omega

theorem visits_map_bumpIf [DecidableEq μ] (legal : List μ) :
    ∀ ch : List (Node μ),
      (ch.map (fun c => if eligibleB legal c then c.bump_avails else c)).map Node.visits =
        ch.map Node.visits := by
  intro ch
  induction ch with
  | nil => rfl
  | cons c cs ih =>
      simp only [List.map_cons, ih, List.cons.injEq, and_true]
      by_cases h : eligibleB legal c
      · rw [if_pos h, Node.bump_visits]
      · rw [if_neg h]

theorem ismctsIter_good_aux [DecidableEq μ] [Inhabited μ] (g : Game σ μ)
    (gt : Node μ → Node μ → Bool) (rand : ℕ → ℕ) (fuel : ℕ) :
    ∀ (N : ℕ) (t : Node μ), t.size ≤ N → ∀ (s : σ) (k : ℕ),
      Good t → Good ((ismctsIter g gt rand fuel t s k).1) := by
  intro N
  induction N with
  | zero =>
      intro t ht
      rw [Node.size_eq'] at ht
      omega
  | succ N ih =>
      intro t ht s k hgood
      by_cases h : g.get_moves s = []
      · rw [ismctsIter_terminal g gt rand fuel t s k h]
        exact good_update g s hgood
      · rcases hu : t.get_untried_moves (g.get_moves s) with _ | ⟨u, us⟩
        · obtain ⟨jc, hsel⟩ := select_guard_some g gt t s h hu
          obtain ⟨hget, helig⟩ := selectIdx_eq_some gt (g.get_moves s) t.child_nodes jc hsel
          rw [ismctsIter_select g gt rand fuel t s k h hu hsel]
          simp only []
          cases t with
          | mk m p w v a ch =>
              simp only [Node.child_nodes_mk] at hget
              obtain ⟨hsum, hch⟩ := good_inv hgood
              have hjc : jc.2 ∈ ch := List.getElem?_mem hget
              have hjcsize : Node.size jc.2 ≤ Node.sizeL ch := Node.sizeL_le_of_mem ch jc.2 hjc
              have hrecgood : Good ((ismctsIter g gt rand fuel jc.2.bump_avails
                  (match jc.2.move with | some mv => g.do_move s mv | none => s) k).1) := by
                apply ih
                · rw [Node.size_bump]
                  rw [Node.size_eq] at ht
                  omega
                · exact good_bump (hch jc.2 hjc)
              have hrecvisits := ismctsIter_visits g gt rand fuel jc.2.bump_avails
                (match jc.2.move with | some mv => g.do_move s mv | none => s) k
              rw [Node.bump_visits] at hrecvisits
              have hget2 := getElem?_map_bumpIf (g.get_moves s) ch jc.1 jc.2
                (by simpa using hget) helig
              have hset := sum_map_set Node.visits
                (ch.map (fun d => if eligibleB (g.get_moves s) d then d.bump_avails else d))
                jc.1 jc.2.bump_avails
                ((ismctsIter g gt rand fuel jc.2.bump_avails
                  (match jc.2.move with | some mv => g.do_move s mv | none => s) k).1)
                hget2
              rw [visits_map_bumpIf, Node.bump_visits] at hset
              have hfinal : Good (Node.update g
                  ((Node.ucb_select_child gt (Node.mk m p w v a ch) (g.get_moves s)).2.with_children
                    (((Node.ucb_select_child gt (Node.mk m p w v a ch)
                      (g.get_moves s)).2.child_nodes).set jc.1
                      ((ismctsIter g gt rand fuel jc.2.bump_avails
                        (match jc.2.move with | some mv => g.do_move s mv | none => s) k).1)))
                  ((ismctsIter g gt rand fuel jc.2.bump_avails
                    (match jc.2.move with | some mv => g.do_move s mv | none => s) k).2.1)) := by
                rw [ucb_snd_child_nodes]
                simp only [Node.ucb_select_child, Node.with_children, Node.update,
                  Node.child_nodes_mk]
                cases p with
                | none =>
                    apply Good.mk
                    · omega
                    · intro c hc
                      rcases List.mem_or_eq_of_mem_set hc with hc2 | hc2
                      · rcases List.mem_map.mp hc2 with ⟨c0, hc0, hc0eq⟩
                        exact hc0eq ▸ good_bumpIf (g.get_moves s) (hch c0 hc0)
                      · exact hc2 ▸ hrecgood
                | some pj =>
                    apply Good.mk
                    · omega
                    · intro c hc
                      rcases List.mem_or_eq_of_mem_set hc with hc2 | hc2
                      · rcases List.mem_map.mp hc2 with ⟨c0, hc0, hc0eq⟩
                        exact hc0eq ▸ good_bumpIf (g.get_moves s) (hch c0 hc0)
                      · exact hc2 ▸ hrecgood
              exact hfinal
        · rw [ismctsIter_expand g gt rand fuel t s k hu]
          simp only []
          cases t with
          | mk m p w v a ch =>
              obtain ⟨hsum, hch⟩ := good_inv hgood
              simp only [Node.child_nodes_mk, Node.with_children]
              have hchildgood : Good (Node.update g
                  (Node.init (some (choice (u :: us) (rand k))) (some (g.player_to_move s)))
                  (rollout g rand fuel (g.do_move s (choice (u :: us) (rand k))) (k + 1)).1) := by
                simp only [Node.init, Node.update]
                exact Good.mk _ _ _ _ _ _ (by simp) (by simp)
              generalize hcgen : Node.update g
                  (Node.init (some (choice (u :: us) (rand k))) (some (g.player_to_move s)))
                  (rollout g rand fuel (g.do_move s (choice (u :: us) (rand k))) (k + 1)).1 =
                  child at hchildgood ⊢
              have hcvisits : child.visits = 1 := by
                rw [← hcgen, Node.update_visits, Node.init, Node.visits_mk]
              simp only [Node.update]
              cases p with
              | none =>
                  apply Good.mk
                  · rw [List.map_append, List.sum_append]
                    simp [hcvisits]
                    omega
                  · intro c hc
                    rcases List.mem_append.mp hc with hc2 | hc2
                    · exact hch c hc2
                    · rw [List.mem_singleton.mp hc2]; exact hchildgood
              | some pj =>
                  apply Good.mk
                  · rw [List.map_append, List.sum_append]
                    simp [hcvisits]
                    omega
                  · intro c hc
                    rcases List.mem_append.mp hc with hc2 | hc2
                    · exact hch c hc2
                    · rw [List.mem_singleton.mp hc2]; exact hchildgood

theorem ismctsIter_good [DecidableEq μ] [Inhabited μ] (g : Game σ μ)
    (gt : Node μ → Node μ → Bool) (rand : ℕ → ℕ) (fuel : ℕ) (t : Node μ) (s : σ) (k : ℕ)
    (h : Good t) : Good ((ismctsIter g gt rand fuel t s k).1) :=
  ismctsIter_good_aux g gt rand fuel t.size t (le_refl _) s k h

theorem ismctsLoop_good [DecidableEq μ] [Inhabited μ] (g : Game σ μ)
    (gt : Node μ → Node μ → Bool) (rand : ℕ → ℕ) (fuel : ℕ) (root : σ) :
    ∀ (n : ℕ) (t : Node μ) (k : ℕ), Good t → Good ((ismctsLoop g gt rand fuel root n t k).1) := by
  intro n
  induction n with
  | zero => intro t k h; exact h
  | succ n ih =>
      intro t k h
      rw [ismctsLoop]
      exact ih _ _ (ismctsIter_good g gt rand fuel t _ _ h)

/-! Read-out and single-move helpers -/

theorem choice_singleton {α : Type} [Inhabited α] (a : α) (r : ℕ) : choice [a] r = a := by
  simp [choice, Nat.mod_one]

theorem ismcts_of_children_nil [DecidableEq μ] [Inhabited μ] (g : Game σ μ)
    (gt : Node μ → Node μ → Bool) (rand : ℕ → ℕ) (fuel : ℕ) (root : σ) (itermax : ℕ)
    (verbose : Bool) (h : (ismctsTree g gt rand fuel root itermax).child_nodes = []) :
    ismcts g gt rand fuel root itermax verbose = none := by
  rw [ismcts, h]
  rfl

theorem ismctsLoop_children_of_terminal [DecidableEq μ] [Inhabited μ] (g : Game σ μ)
    (gt : Node μ → Node μ → Bool) (rand : ℕ → ℕ) (fuel : ℕ) (root : σ)
    (hdet : ∀ r, g.get_moves (g.clone_and_randomize root (g.player_to_move root) r) = []) :
    ∀ (n : ℕ) (t : Node μ) (k : ℕ),
      ((ismctsLoop g gt rand fuel root n t k).1).child_nodes = t.child_nodes := by
  intro n
  induction n with
  | zero => intro t k; rfl
  | succ n ih =>
      intro t k
      rw [ismctsLoop]
      rw [ih]
      rw [ismctsIter_terminal g gt rand fuel t _ (k + 1) (hdet (rand k))]
      simp

theorem ismctsIter_children_single_first [DecidableEq μ] [Inhabited μ] (g : Game σ μ)
    (gt : Node μ → Node μ → Bool) (rand : ℕ → ℕ) (fuel : ℕ) (t : Node μ) (s : σ) (k : ℕ)
    {m : μ} (h0 : t.child_nodes = []) (hM : g.get_moves s = [m]) :
    ((ismctsIter g gt rand fuel t s k).1).child_nodes.map Node.move = [some m] := by
  have hu : t.get_untried_moves (g.get_moves s) = [m] := by
    rw [hM]
    simp [Node.get_untried_moves, h0]
  rw [ismctsIter_expand g gt rand fuel t s k hu]
  simp [h0, choice_singleton, Node.init]

theorem ismctsIter_children_single_next [DecidableEq μ] [Inhabited μ] (g : Game σ μ)
    (gt : Node μ → Node μ → Bool) (rand : ℕ → ℕ) (fuel : ℕ) (t : Node μ) (s : σ) (k : ℕ)
    {m : μ} (hmap : t.child_nodes.map Node.move = [some m]) (hM : g.get_moves s = [m]) :
    ((ismctsIter g gt rand fuel t s k).1).child_nodes.map Node.move = [some m] := by
  rcases hc : t.child_nodes with _ | ⟨c, rest⟩
  · rw [hc] at hmap; simp at hmap
  · rcases rest with _ | ⟨d, rest2⟩
    · rw [hc] at hmap
      simp at hmap
      have hmv : c.move = some m := hmap
      have hu : t.get_untried_moves (g.get_moves s) = [] := by
        rw [hM]
        simp [Node.get_untried_moves, hc, hmv]
      have hm : g.get_moves s ≠ [] := by rw [hM]; simp
      have hsel : selectIdx gt (g.get_moves s) t.child_nodes = some (0, c) := by
        rw [hM, hc]
        have helig : eligibleB [m] c = true := by
          rw [eligibleB, hmv]
          simp
        simp [selectIdx, List.enum, List.enumFrom, List.filter, helig, pyMax, pyMaxBy]
      rw [ismctsIter_select g gt rand fuel t s k hm hu hsel]
      simp only [ucb_snd_child_nodes, hc]
      have helig : eligibleB (g.get_moves s) c = true := by
        rw [eligibleB, hmv, hM]
        simp
      simp only [List.map_cons, List.map_nil, helig, if_pos]
      rw [Node.update_child_nodes, Node.with_children_child_nodes]
      rw [List.set_cons_zero]
      simp only [List.map_cons, List.map_nil]
      rw [ismctsIter_root_move]
      simp [hmv]
    · rw [hc] at hmap; simp at hmap

theorem ismctsLoop_children_single [DecidableEq μ] [Inhabited μ] (g : Game σ μ)
    (gt : Node μ → Node μ → Bool) (rand : ℕ → ℕ) (fuel : ℕ) (root : σ) {m : μ}
    (hdet : ∀ r, g.get_moves (g.clone_and_randomize root (g.player_to_move root) r) = [m]) :
    ∀ (n : ℕ) (t : Node μ) (k : ℕ), t.child_nodes.map Node.move = [some m] →
      ((ismctsLoop g gt rand fuel root n t k).1).child_nodes.map Node.move = [some m] := by
  intro n
  induction n with
  | zero => intro t k h; exact h
  | succ n ih =>
      intro t k h
      rw [ismctsLoop]
      exact ih _ _ (ismctsIter_children_single_next g gt rand fuel t _ (k + 1) h (hdet (rand k)))

/-! FirstMax transport to the filtered child list -/

theorem firstMax_map {α β K : Type} [LinearOrder K] (h : α → β) (f : β → K) (l : List α)
    (x : α) (hfm : FirstMax (fun a => f (h a)) l x) : FirstMax f (l.map h) (h x) := by
  obtain ⟨l₁, l₂, hdecomp, hbefore, hafter⟩ := hfm
  refine ⟨l₁.map h, l₂.map h, ?_, ?_, ?_⟩
  · rw [hdecomp, List.map_append, List.map_cons]
  · intro y hy
    rcases List.mem_map.mp hy with ⟨z, hz, hzy⟩
    exact hzy ▸ hbefore z hz
  · intro y hy
    rcases List.mem_map.mp hy with ⟨z, hz, hzy⟩
    exact hzy ▸ hafter z hz

theorem selectIdx_firstMax [DecidableEq μ] {K : Type} [LinearOrder K] (f : Node μ → K)
    (gt : Node μ → Node μ → Bool) (hgt : ∀ a b : Node μ, gt a b = true ↔ f b < f a)
    (t : Node μ) (legal : List μ) (hne : legal_children t legal ≠ []) :
    ∃ jc, selectIdx gt legal t.child_nodes = some jc ∧
      t.child_nodes[jc.1]? = some jc.2 ∧ eligibleB legal jc.2 = true ∧
      FirstMax f (legal_children t legal) jc.2 := by
  obtain ⟨jc, hsel⟩ := selectIdx_isSome gt legal t hne
  obtain ⟨hget, helig⟩ := selectIdx_eq_some gt legal t.child_nodes jc hsel
  refine ⟨jc, hsel, hget, helig, ?_⟩
  have hsel2 : pyMax (fun a b : ℕ × Node μ => gt a.2 b.2)
      (t.child_nodes.enum.filter (fun p => eligibleB legal p.2)) = some jc := hsel
  have hP : FirstMax (fun p : ℕ × Node μ => f p.2)
      (t.child_nodes.enum.filter (fun p => eligibleB legal p.2)) jc :=
    pyMax_firstMax (fun p : ℕ × Node μ => f p.2) (fun a b : ℕ × Node μ => gt a.2 b.2)
      (fun a b => hgt a.2 b.2) _ _ hsel2
  have := firstMax_map Prod.snd f _ jc hP
  rwa [elig_enum_map_snd] at this

/-! State reachability: every state the engine produces comes from the
input state by a chain of do_move applications -/

theorem rollout_reachable [Inhabited μ] (g : Game σ μ) (rand : ℕ → ℕ) :
    ∀ (fuel : ℕ) (s : σ) (k : ℕ),
      ∃ ms : List μ, (rollout g rand fuel s k).1 = ms.foldl g.do_move s := by
  intro fuel
  induction fuel with
  | zero => intro s k; exact ⟨[], rfl⟩
  | succ fuel ih =>
      intro s k
      rw [rollout]
      rcases hM : g.get_moves s with _ | ⟨u, us⟩
      · exact ⟨[], rfl⟩
      · obtain ⟨ms, hms⟩ := ih (g.do_move s (choice (u :: us) (rand k))) (k + 1)
        exact ⟨choice (u :: us) (rand k) :: ms, hms⟩

theorem ismctsIter_reachable_aux [DecidableEq μ] [Inhabited μ] (g : Game σ μ)
    (gt : Node μ → Node μ → Bool) (rand : ℕ → ℕ) (fuel : ℕ) :
    ∀ (N : ℕ) (t : Node μ), t.size ≤ N → ∀ (s : σ) (k : ℕ),
      ∃ ms : List μ, (ismctsIter g gt rand fuel t s k).2.1 = ms.foldl g.do_move s := by
  intro N
  induction N with
  | zero =>
      intro t ht
      rw [Node.size_eq'] at ht
      omega
  | succ N ih =>
      intro t ht s k
      by_cases h : g.get_moves s = []
      · rw [ismctsIter_terminal g gt rand fuel t s k h]
        exact ⟨[], rfl⟩
      · rcases hu : t.get_untried_moves (g.get_moves s) with _ | ⟨u, us⟩
        · obtain ⟨jc, hsel⟩ := select_guard_some g gt t s h hu
          obtain ⟨hget, _⟩ := selectIdx_eq_some gt (g.get_moves s) t.child_nodes jc hsel
          rw [ismctsIter_select g gt rand fuel t s k h hu hsel]
          have hsize : jc.2.bump_avails.size ≤ N := by
            rw [Node.size_bump]
            have h1 := Node.sizeL_le_of_mem t.child_nodes jc.2 (List.getElem?_mem hget)
            rw [Node.size_eq'] at ht
            omega
          rcases hmv : jc.2.move with _ | mv
          · obtain ⟨ms, hms⟩ := ih jc.2.bump_avails hsize s k
            refine ⟨ms, ?_⟩
            simp only [hmv]
            exact hms
          · obtain ⟨ms, hms⟩ := ih jc.2.bump_avails hsize (g.do_move s mv) k
            refine ⟨mv :: ms, ?_⟩
            simp only [hmv]
            exact hms
        · rw [ismctsIter_expand g gt rand fuel t s k hu]
          obtain ⟨ms, hms⟩ :=
            rollout_reachable g rand fuel (g.do_move s (choice (u :: us) (rand k))) (k + 1)
          exact ⟨choice (u :: us) (rand k) :: ms, hms⟩

theorem ismctsIter_reachable [DecidableEq μ] [Inhabited μ] (g : Game σ μ)
    (gt : Node μ → Node μ → Bool) (rand : ℕ → ℕ) (fuel : ℕ) (t : Node μ) (s : σ) (k : ℕ) :
    ∃ ms : List μ, (ismctsIter g gt rand fuel t s k).2.1 = ms.foldl g.do_move s :=
  ismctsIter_reachable_aux g gt rand fuel t.size t (le_refl _) s k

/-! Frame lemmas for the store model -/

theorem foldl_storeGame_frame (g : Game σ μ) :
    ∀ (ms : List μ) (st : Store σ) (a : ℕ),
      (ms.foldl (storeGame g).do_move (st, a)).2 = a ∧
      (ms.foldl (storeGame g).do_move (st, a)).1.next = st.next ∧
      ∀ b : ℕ, b ≠ a → (ms.foldl (storeGame g).do_move (st, a)).1.mem b = st.mem b := by
  intro ms
  induction ms with
  | nil => intro st a; exact ⟨rfl, rfl, fun b _ => rfl⟩
  | cons mv ms ih =>
      intro st a
      rw [List.foldl_cons]
      have hstep : (storeGame g).do_move (st, a) mv =
          (writeS st a (g.do_move (readS st a) mv), a) := rfl
      rw [hstep]
      obtain ⟨h1, h2, h3⟩ := ih (writeS st a (g.do_move (readS st a) mv)) a
      refine ⟨h1, ?_, ?_⟩
      · rw [h2]; rfl
      · intro b hb
        rw [h3 b hb]
        simp [writeS, hb]

theorem ismctsIter_store_frame [DecidableEq μ] [Inhabited μ] (g : Game σ μ)
    (gt : Node μ → Node μ → Bool) (rand : ℕ → ℕ) (fuel : ℕ) (t : Node μ) (st : Store σ)
    (a : ℕ) (k : ℕ) :
    ((ismctsIter (storeGame g) gt rand fuel t (st, a) k).2.1).1.next = st.next ∧
    ∀ b : ℕ, b ≠ a →
      ((ismctsIter (storeGame g) gt rand fuel t (st, a) k).2.1).1.mem b = st.mem b := by
  obtain ⟨ms, hms⟩ := ismctsIter_reachable (storeGame g) gt rand fuel t (st, a) k
  obtain ⟨h1, h2, h3⟩ := foldl_storeGame_frame g ms st a
  constructor
  · rw [hms, h2]
  · intro b hb
    rw [hms]
    exact h3 b hb

theorem ismctsLoopS_frame [DecidableEq μ] [Inhabited μ] (g : Game σ μ)
    (gt : Node μ → Node μ → Bool) (rand : ℕ → ℕ) (fuel : ℕ) (rootAddr : ℕ) :
    ∀ (n : ℕ) (t : Node μ) (st : Store σ) (k : ℕ), rootAddr < st.next →
      (ismctsLoopS g gt rand fuel rootAddr n t st k).2.1.mem rootAddr = st.mem rootAddr ∧
      st.next ≤ (ismctsLoopS g gt rand fuel rootAddr n t st k).2.1.next := by
  intro n
  induction n with
  | zero => intro t st k _; exact ⟨rfl, le_refl _⟩
  | succ n ih =>
      intro t st k hroot
      rw [ismctsLoopS]
      set s0 := g.clone_and_randomize (readS st rootAddr)
        (g.player_to_move (readS st rootAddr)) (rand k) with hs0
      set st1 : Store σ := ⟨fun b => if b = st.next then s0 else st.mem b, st.next + 1⟩
        with hst1
      have halloc : allocS st s0 = (st1, st.next) := rfl
      rw [halloc]
      obtain ⟨hnext, hframe⟩ := ismctsIter_store_frame g gt rand fuel t st1 st.next (k + 1)
      set r := ismctsIter (storeGame g) gt rand fuel t (st1, st.next) (k + 1) with hr
      have hst2next : (r.2.1).1.next = st.next + 1 := by
        rw [hnext, hst1]
      have hst2mem : (r.2.1).1.mem rootAddr = st.mem rootAddr := by
        rw [hframe rootAddr (by omega)]
        rw [hst1]
        simp only []
        rw [if_neg (by omega)]
      obtain ⟨ih1, ih2⟩ := ih r.1 (r.2.1).1 r.2.2 (by omega)
      refine ⟨?_, ?_⟩
      · rw [ih1, hst2mem]
      · omega

/-! Claim theorems -/

/-- C2: for every game, root state, and iteration budget, after the ismcts
loop completes the root node's visit count equals exactly the budget: each
iteration's backpropagation walks from the current node up to and
including the root and updates every node on that path once.  (Stated for
every budget, which subsumes the claim's budgets of at least 1, and for
every game record, randomness stream, and score comparison.) -/
theorem ismcts_root_visits_eq_budget [DecidableEq μ] [Inhabited μ] (g : Game σ μ)
    (gt : Node μ → Node μ → Bool) (rand : ℕ → ℕ) (fuel : ℕ) (root : σ) (itermax : ℕ) :
    (ismctsTree g gt rand fuel root itermax).visits = itermax := by
  rw [ismctsTree, ismctsLoop_visits]
  simp [Node.init]

/-- C6: each iteration creates at most one node (the Expand phase appends
at most one fresh child and nothing else allocates), so after N iterations
the tree rooted at the search's root node has at most N + 1 nodes. -/
theorem ismcts_tree_size_le_budget_succ [DecidableEq μ] [Inhabited μ] (g : Game σ μ)
    (gt : Node μ → Node μ → Bool) (rand : ℕ → ℕ) (fuel : ℕ) (root : σ) (itermax : ℕ) :
    (ismctsTree g gt rand fuel root itermax).size ≤ itermax + 1 := by
  have h := ismctsLoop_size g gt rand fuel root itermax (Node.init none none) 0
  have hinit : (Node.init none none : Node μ).size = 1 := by
    rw [Node.init, Node.size_eq, Node.sizeL_nil]
  rw [ismctsTree]
  omega

/-- C10: after every iteration-count prefix of a search, every node of the
tree has a visit count at least the sum of its children's visit counts: a
new child starts at 0 visits (1 after the backpropagation pass of the
iteration that created it), and every backpropagation pass that updates a
child also updates its parent. -/
theorem ismcts_tree_parent_dominance [DecidableEq μ] [Inhabited μ] (g : Game σ μ)
    (gt : Node μ → Node μ → Bool) (rand : ℕ → ℕ) (fuel : ℕ) (root : σ) (itermax : ℕ) :
    Good (ismctsTree g gt rand fuel root itermax) := by
  rw [ismctsTree]
  apply ismctsLoop_good
  rw [Node.init]
  exact Good.mk none none 0 0 1 [] (by simp) (by simp)

/-- C7: update increments visits by exactly one; when the mover identifier
is present it adds the terminal result for that mover to wins, and when it
is absent (the root) wins is unchanged; no other field moves. -/
theorem node_update_spec (g : Game σ μ) (t : Node μ) (ts : σ) :
    (t.update g ts).visits = t.visits + 1 ∧
    (t.update g ts).wins = t.wins +
      (match t.player_just_moved with
        | some pj => g.get_result ts pj
        | none => 0) ∧
    (t.update g ts).move = t.move ∧
    (t.update g ts).player_just_moved = t.player_just_moved ∧
    (t.update g ts).avails = t.avails ∧
    (t.update g ts).child_nodes = t.child_nodes :=
  ⟨Node.update_visits g t ts, Node.update_wins g t ts, Node.update_move g t ts,
    Node.update_pjm g t ts, Node.update_avails g t ts, Node.update_child_nodes g t ts⟩

/-- C8: get_untried_moves returns exactly those legal moves that are not
equal, under value equality, to the move of any existing child, in the
original order of the legal-move list (a sublist of it), and in particular
no returned move already labels a child. -/
theorem get_untried_moves_spec [DecidableEq μ] (t : Node μ) (legal : List μ) :
    (∀ m : μ, m ∈ t.get_untried_moves legal ↔
      (m ∈ legal ∧ ∀ c ∈ t.child_nodes, c.move ≠ some m)) ∧
    List.Sublist (t.get_untried_moves legal) legal ∧
    ∀ m ∈ t.get_untried_moves legal, ∀ c ∈ t.child_nodes, c.move ≠ some m := by
  have hchar : ∀ m : μ, m ∈ t.get_untried_moves legal ↔
      (m ∈ legal ∧ ∀ c ∈ t.child_nodes, c.move ≠ some m) := by
    intro m
    rw [Node.get_untried_moves]
    simp only [List.mem_filter, decide_eq_true_eq]
    constructor
    · rintro ⟨h1, h2⟩
      refine ⟨h1, ?_⟩
      intro c hc hcon
      exact h2 (List.mem_map.mpr ⟨c, hc, hcon⟩)
    · rintro ⟨h1, h2⟩
      refine ⟨h1, ?_⟩
      intro hcon
      rcases List.mem_map.mp hcon with ⟨c, hc, hcm⟩
      exact h2 c hc hcm
  refine ⟨hchar, ?_, ?_⟩
  · rw [Node.get_untried_moves]
    exact List.filter_sublist legal
  · intro m hm
    exact ((hchar m).mp hm).2

/-- C4 counterexample: the source performs no fail-fast validation.  With a
root state that has zero legal moves and a budget of 3, ismcts runs all
three iterations (the root's visit count reaches 3, so work is done rather
than failing fast) and only then fails at the read-out: the final max is
taken over an empty child list (modelled by the none result, the
ValueError of the source).  This contradicts the claim that the engine
fails fast without running iterations. -/
theorem ismcts_no_validation_counterexample :
    (ismctsTree gNone gtF rand0 0 0 3).visits = 3 ∧
    (ismctsTree gNone gtF rand0 0 0 3).child_nodes = [] ∧
    ismcts gNone gtF rand0 0 0 3 false = none := by
  have hdet : ∀ r, gNone.get_moves
      (gNone.clone_and_randomize 0 (gNone.player_to_move 0) r) = [] := fun _ => rfl
  have hch : (ismctsTree gNone gtF rand0 0 0 3).child_nodes = [] := by
    rw [ismctsTree, ismctsLoop_children_of_terminal gNone gtF rand0 0 0 hdet]
    rfl
  have hv : (ismctsTree gNone gtF rand0 0 0 3).visits = 3 := by
    rw [ismctsTree, ismctsLoop_visits]
    rfl
  exact ⟨hv, hch, ismcts_of_children_nil gNone gtF rand0 0 0 3 false hch⟩

/-- C4 (amended): when the budget is 0, or the root state has zero legal
moves under every determinization, ismcts does not fail fast: it runs its
(possibly zero) iterations — each one, in the no-legal-moves case,
updating only the root, whose visit count still reaches the budget — and
only then fails at the final read-out, which finds the child list empty
and produces no move (the ValueError of max over an empty sequence). -/
theorem ismcts_degenerate_readout_fails [DecidableEq μ] [Inhabited μ] (g : Game σ μ)
    (gt : Node μ → Node μ → Bool) (rand : ℕ → ℕ) (fuel : ℕ) (root : σ) (itermax : ℕ)
    (verbose : Bool)
    (h : itermax = 0 ∨
      ∀ r, g.get_moves (g.clone_and_randomize root (g.player_to_move root) r) = []) :
    (ismctsTree g gt rand fuel root itermax).child_nodes = [] ∧
    (ismctsTree g gt rand fuel root itermax).visits = itermax ∧
    ismcts g gt rand fuel root itermax verbose = none := by
  have hch : (ismctsTree g gt rand fuel root itermax).child_nodes = [] := by
    rcases h with h | h
    · subst h; rfl
    · rw [ismctsTree, ismctsLoop_children_of_terminal g gt rand fuel root h]
      rfl
  refine ⟨hch, ?_, ismcts_of_children_nil g gt rand fuel root itermax verbose hch⟩
  rw [ismctsTree, ismctsLoop_visits]
  simp [Node.init]

theorem ismcts_degenerate_readout_fails_witness :
    (ismctsTree gNone gtF rand0 0 0 0).child_nodes = [] ∧
    (ismctsTree gNone gtF rand0 0 0 0).visits = 0 ∧
    ismcts gNone gtF rand0 0 0 0 false = none :=
  ismcts_degenerate_readout_fails gNone gtF rand0 0 0 0 false (Or.inl rfl)

/-- C5: for a root state with exactly one legal move m under every
determinization, and any budget of at least 1, ismcts returns m: the
first iteration expands the unique move into the only child of the root,
every later iteration selects that same child, and the read-out picks it. -/
theorem ismcts_single_move_returns_it [DecidableEq μ] [Inhabited μ] (g : Game σ μ)
    (gt : Node μ → Node μ → Bool) (rand : ℕ → ℕ) (fuel : ℕ) (root : σ) {m : μ} (itermax : ℕ)
    (hdet : ∀ r, g.get_moves (g.clone_and_randomize root (g.player_to_move root) r) = [m])
    (hN : 1 ≤ itermax) (verbose : Bool) :
    ismcts g gt rand fuel root itermax verbose = some m := by
  rcases itermax with _ | n
  · omega
  · have hmap : ((ismctsTree g gt rand fuel root (n + 1)).child_nodes).map Node.move =
        [some m] := by
      rw [ismctsTree, ismctsLoop]
      apply ismctsLoop_children_single g gt rand fuel root hdet
      exact ismctsIter_children_single_first g gt rand fuel _ _ _ rfl (hdet (rand 0))
    rcases hc : (ismctsTree g gt rand fuel root (n + 1)).child_nodes with _ | ⟨c, rest⟩
    · rw [hc] at hmap; simp at hmap
    · rcases rest with _ | ⟨d, rest2⟩
      · rw [hc] at hmap
        simp at hmap
        rw [ismcts, hc]
        simp [pyMax, pyMaxBy, hmap]
      · rw [hc] at hmap; simp at hmap

theorem ismcts_single_move_returns_it_witness :
    ismcts gOne gtF rand0 0 0 2 false = some 7 :=
  ismcts_single_move_returns_it gOne gtF rand0 0 0 2 (fun _ => rfl) (by decide) false

/-- C9: the engine never mutates the root state it is given.  In the store
model, where do_move writes through the address of the state it is applied
to and each determinization is allocated at a fresh address, the heap cell
holding the caller's root state is bit-for-bit unchanged when the full
loop returns: every write of the search targets the per-iteration clone. -/
theorem ismcts_store_preserves_rootstate [DecidableEq μ] [Inhabited μ] (g : Game σ μ)
    (gt : Node μ → Node μ → Bool) (rand : ℕ → ℕ) (fuel : ℕ) (rootAddr : ℕ) (n : ℕ)
    (t : Node μ) (st : Store σ) (k : ℕ) (h : rootAddr < st.next) :
    readS (ismctsLoopS g gt rand fuel rootAddr n t st k).2.1 rootAddr = readS st rootAddr :=
  (ismctsLoopS_frame g gt rand fuel rootAddr n t st k h).1

theorem ismcts_store_preserves_rootstate_witness :
    0 < (⟨fun _ => 5, 1⟩ : Store ℕ).next ∧
    readS (ismctsLoopS gOne gtF rand0 0 0 1 (Node.init none none)
      (⟨fun _ => 5, 1⟩ : Store ℕ) 0).2.1 0 = readS (⟨fun _ => 5, 1⟩ : Store ℕ) 0 :=
  ⟨by decide,
    ismcts_store_preserves_rootstate gOne gtF rand0 0 0 1 (Node.init none none)
      (⟨fun _ => 5, 1⟩ : Store ℕ) 0 (by decide)⟩

/-- C3: whenever the root has at least one child after the N iterations,
ismcts returns the move of the immediate child of the root with the
highest visit count, ties resolved in favour of the first maximum in
child insertion order; the verbose flag (which only selects the diagnostic
output) has no effect on the returned move — the result is the same for
every value of the flag. -/
theorem ismcts_returns_most_visited_child [DecidableEq μ] [Inhabited μ] (g : Game σ μ)
    (gt : Node μ → Node μ → Bool) (rand : ℕ → ℕ) (fuel : ℕ) (root : σ) (itermax : ℕ)
    (h : (ismctsTree g gt rand fuel root itermax).child_nodes ≠ []) :
    ∃ c, FirstMax Node.visits (ismctsTree g gt rand fuel root itermax).child_nodes c ∧
      ∀ verbose : Bool, ismcts g gt rand fuel root itermax verbose = c.move := by
  rcases hc : (ismctsTree g gt rand fuel root itermax).child_nodes with _ | ⟨y, ys⟩
  · exact absurd hc h
  · refine ⟨pyMaxBy visGt y ys, ?_, ?_⟩
    · exact pyMax_firstMax Node.visits visGt (fun a b => by simp [visGt]) (y :: ys) _ rfl
    · intro verbose
      rw [ismcts, hc]
      rfl

theorem ismcts_returns_most_visited_child_witness :
    ismcts gOne gtF rand0 0 0 1 true = some 7 ∧ ismcts gOne gtF rand0 0 0 1 false = some 7 := by
  have hu : (Node.init none none : Node ℕ).get_untried_moves (gOne.get_moves 0) = [7] := rfl
  have hiter := ismctsIter_expand gOne gtF rand0 0 (Node.init none none) 0 1 hu
  have h1 : ismctsTree gOne gtF rand0 0 0 1 =
      (ismctsIter gOne gtF rand0 0 (Node.init none none) 0 1).1 := rfl
  have htree : ismctsTree gOne gtF rand0 0 0 1 =
      Node.mk none none 0 1 1 [Node.mk (some 7) (some 1) 1 1 1 []] := by
    rw [h1, hiter]
    simp [choice, rand0, Nat.mod_one, rollout, gOne, Node.init, Node.update,
      Node.with_children]
  obtain ⟨c, hfm, hall⟩ := ismcts_returns_most_visited_child gOne gtF rand0 0 0 1
    (by rw [htree]; simp)
  have hcm : c = Node.mk (some 7) (some 1) 1 1 1 [] := by
    obtain ⟨l₁, l₂, hdec, _, _⟩ := hfm
    rw [htree] at hdec
    simp only [Node.child_nodes_mk] at hdec
    have hlen : (1 : ℕ) = l₁.length + (1 + l₂.length) := by
      simpa [Nat.add_comm, Nat.add_assoc, Nat.add_left_comm] using congrArg List.length hdec
    have hl1 : l₁ = [] := List.eq_nil_of_length_eq_zero (by omega)
    have hl2 : l₂ = [] := List.eq_nil_of_length_eq_zero (by omega)
    subst hl1
    subst hl2
    rw [List.nil_append] at hdec
    exact (List.cons.inj hdec).1.symm
  constructor
  · rw [hall true, hcm]
    rfl
  · rw [hall false, hcm]
    rfl

/-- C1: for every node with at least one eligible child — a child whose
move is in the supplied legal-move list (each eligible child carrying at
least one visit, as the engine guarantees at every selection point) —
ucb_select_child returns the eligible child maximizing the UCB score
wins/visits + exploration * sqrt(ln(avails)/visits), scores taken over the
reals and compared by any boolean comparison gt deciding that order,
resolving ties by the first maximum in child insertion order; and as a
side effect it increments avails by exactly 1 for every eligible child
(selected or not) and for no ineligible child, leaving every other field
of every child, and every field of the node itself, unchanged. -/
theorem ucb_select_child_spec [DecidableEq μ] (t : Node μ) (legal : List μ) (e : ℝ)
    (gt : Node μ → Node μ → Bool)
    (hgt : ∀ a b : Node μ, gt a b = true ↔
      (b.wins : ℝ) / (b.visits : ℝ) +
          e * Real.sqrt (Real.log (b.avails : ℝ) / (b.visits : ℝ)) <
        (a.wins : ℝ) / (a.visits : ℝ) +
          e * Real.sqrt (Real.log (a.avails : ℝ) / (a.visits : ℝ)))
    (hne : legal_children t legal ≠ [])
    (hv : ∀ c ∈ legal_children t legal, 0 < c.visits) :
    (∃ (j : ℕ) (c : Node μ), (Node.ucb_select_child gt t legal).1 = some (j, c) ∧
      t.child_nodes[j]? = some c ∧ eligibleB legal c = true ∧
      FirstMax (fun d : Node μ =>
          (d.wins : ℝ) / (d.visits : ℝ) +
            e * Real.sqrt (Real.log (d.avails : ℝ) / (d.visits : ℝ)))
        (legal_children t legal) c) ∧
    (Node.ucb_select_child gt t legal).2.move = t.move ∧
    (Node.ucb_select_child gt t legal).2.player_just_moved = t.player_just_moved ∧
    (Node.ucb_select_child gt t legal).2.wins = t.wins ∧
    (Node.ucb_select_child gt t legal).2.visits = t.visits ∧
    (Node.ucb_select_child gt t legal).2.avails = t.avails ∧
    (Node.ucb_select_child gt t legal).2.child_nodes.length = t.child_nodes.length ∧
    ∀ (j : ℕ) (c c2 : Node μ), t.child_nodes[j]? = some c →
      (Node.ucb_select_child gt t legal).2.child_nodes[j]? = some c2 →
      c2.avails = c.avails + (if eligibleB legal c then 1 else 0) ∧
      c2.move = c.move ∧ c2.wins = c.wins ∧ c2.visits = c.visits ∧
      c2.player_just_moved = c.player_just_moved ∧ c2.child_nodes = c.child_nodes := by
  refine ⟨?_, ?_, ?_, ?_, ?_, ?_, ?_, ?_⟩
  · obtain ⟨jc, hsel, hget, helig, hfm⟩ := selectIdx_firstMax
      (fun d : Node μ =>
        (d.wins : ℝ) / (d.visits : ℝ) +
          e * Real.sqrt (Real.log (d.avails : ℝ) / (d.visits : ℝ)))
      gt hgt t legal hne
    exact ⟨jc.1, jc.2, by
        rw [show (Node.ucb_select_child gt t legal).1 = selectIdx gt legal t.child_nodes
          from rfl, hsel],
      hget, helig, hfm⟩
  · exact ucb_snd_move gt t legal
  · exact ucb_snd_pjm gt t legal
  · exact ucb_snd_wins gt t legal
  · exact ucb_snd_visits gt t legal
  · exact ucb_snd_avails gt t legal
  · rw [ucb_snd_child_nodes, List.length_map]
  · intro j c c2 hc hc2
    rw [ucb_snd_child_nodes, List.getElem?_map, hc] at hc2
    rw [Option.map, Option.some.injEq] at hc2
    subst hc2
    by_cases helig : eligibleB legal c
    · rw [if_pos helig] at *
      simp [helig]
    · rw [if_neg helig] at *
      simp [helig]

theorem ucb_select_child_spec_witness :
    FirstMax (fun d : Node ℕ =>
        (d.wins : ℝ) / (d.visits : ℝ) +
          (0 : ℝ) * Real.sqrt (Real.log (d.avails : ℝ) / (d.visits : ℝ)))
      (legal_children tw lw) c2w ∧
    (Node.ucb_select_child gtQ tw lw).2.child_nodes.length = tw.child_nodes.length := by
  have hgt : ∀ a b : Node ℕ, gtQ a b = true ↔
      (b.wins : ℝ) / (b.visits : ℝ) +
          (0 : ℝ) * Real.sqrt (Real.log (b.avails : ℝ) / (b.visits : ℝ)) <
        (a.wins : ℝ) / (a.visits : ℝ) +
          (0 : ℝ) * Real.sqrt (Real.log (a.avails : ℝ) / (a.visits : ℝ)) := by
    intro a b
    rw [gtQ, decide_eq_true_eq, zero_mul, add_zero, zero_mul, add_zero]
    constructor
    · intro h2
      exact_mod_cast h2
    · intro h2
      exact_mod_cast h2
  have hlc : legal_children tw lw = [c1w, c2w] := rfl
  have hne : legal_children tw lw ≠ [] := by
    rw [hlc]
    exact List.cons_ne_nil _ _
  have hv : ∀ c ∈ legal_children tw lw, 0 < c.visits := by
    rw [hlc]
    decide
  obtain ⟨⟨j, c, hsel, hget, helig, hfm⟩, hmv, hpj, hwins, hvis, hav, hlen, hpt⟩ :=
    ucb_select_child_spec tw lw 0 gtQ hgt hne hv
  have hcomp : gtQ c2w c1w = true := by
    rw [gtQ, decide_eq_true_eq]
    norm_num [c1w, c2w]
  have hsel2 : (Node.ucb_select_child gtQ tw lw).1 = some (1, c2w) := by
    show selectIdx gtQ lw tw.child_nodes = some (1, c2w)
    rw [selectIdx,
      show tw.child_nodes.enum.filter (fun p => eligibleB lw p.2) = [(0, c1w), (1, c2w)]
        from rfl]
    simp [pyMax, pyMaxBy, hcomp]
  rw [hsel2, Option.some.injEq] at hsel
  have hc : c = c2w := (Prod.mk.injEq _ _ _ _ ▸ hsel).2.symm
  exact ⟨hc ▸ hfm, hlen⟩

end ISMCTS
